import Mathlib

/-!
Verification development for the user-spray import-grouping engine.

This file gives a shallow embedding, in Lean, of the core data model and
algorithms of the repository:

  * `src/map/key.rs`  — leaf names, visibility descriptors, the `UseKey`
    sort/merge key and its `Ord` implementation;
  * `src/map/mod.rs`  — the `Category` classifier and the `UseMap`
    categorizer (`Extend<ItemUse> for UseMap`, `UseMap::take`);
  * `src/tree/walk.rs` — the depth-first decomposition of a `syn::UseTree`
    into (path-segments, leaf) pairs;
  * `src/tree/mod.rs` — the prefix-merge tree (`Group` / `Node` /
    `GroupOrNode` / `Tree`) and the insertion algorithm
    `Visitor::visit_name`, along with the (unimplemented) serializer
    `From<Tree> for UseTree`;
  * `src/display.rs`  — the text rendering of import items;
  * `src/lib.rs`      — the `format` driver.

Rust `todo!()` and failed `assert!` branches are modelled as `Except.error`
values of the `Panic` type: the Rust program panics exactly where the
embedding returns an error.  `Rc<RefCell<...>>` node sharing in the merge
tree is tree-shaped (each node has a single owner; the cursor of
`visit_name` is a temporary second reference), so in-place mutation is
modelled by rebuilding the affected spine of a pure tree.
-/

/-- Model of `map::key::Name` (a leaf name): plain identifier, wildcard, or
rename.  `syn::Ident` values are compared by their text, so identifiers are
modelled as strings. -/
inductive Name where
  | ident (s : String)
  | glob
  | rename (orig ren : String)
deriving DecidableEq

/-- Model of `Name::self_()`: a plain-name leaf for the `self` keyword. -/
def Name.selfName : Name := .ident ("self")

/-- Model of `Name::as_ident`. -/
def Name.asIdent : Name → Option String
  | .ident s => some s
  | _ => none

/-- Model of `map::Category`. -/
inductive Category where
  | std
  | external
  | crate
deriving DecidableEq

/-- Model of `impl From<&Name> for Category` in `src/map/mod.rs`: `std`,
`core`, `alloc` map to `Std`; `self`, `super`, `crate` map to `Crate`;
every other identifier maps to `External`; a wildcard (`Glob`) maps to
`External`; a rename is classified by its original identifier. -/
def categoryOfName : Name → Category
  | .glob => .external
  | .ident s =>
    if s = "std" ∨ s = "core" ∨ s = "alloc" then .std
    else if s = "self" ∨ s = "super" ∨ s = "crate" then .crate
    else .external
  | .rename orig _ =>
    if orig = "std" ∨ orig = "core" ∨ orig = "alloc" then .std
    else if orig = "self" ∨ orig = "super" ∨ orig = "crate" then .crate
    else .external

/-- Model of `syn::Visibility` restricted to what the program inspects: the
`pub` visibility, the inherited (private) visibility, and `pub(...)`
restricted visibility.  For a restricted visibility the program compares
presence of the `in` token, presence of the path's leading `::`, and the
path's segment identifiers, so exactly those components are modelled
(segment generic arguments are rejected by `syn`'s mod-style path parser
and asserted absent by `Ord for UseKey`). -/
inductive Vis where
  | inherited
  | restricted (inTok : Bool) (leadColon : Bool) (segs : List String)
  | pub
deriving DecidableEq

/-- Model of `map::key::UseKey`: visibility, leading-colon flag, and the
name of the first path segment (or the sole leaf) of the import. -/
structure UseKey where
  vis : Vis
  leadColon : Bool
  name : Name
deriving DecidableEq

/-- Comparison of two booleans as Rust's `Ord for bool`: `false < true`.
This also models `Ord` for `LeadingColon` (`No < Yes`). -/
def boolCmp (a b : Bool) : Ordering :=
  if a = b then .eq else if a then .gt else .lt

/-- Three-way comparison of naturals. -/
def natCmp (a b : Nat) : Ordering :=
  if a < b then .lt else if a = b then .eq else .gt

/-- Three-way comparison of characters by scalar value. -/
def charCmp (a b : Char) : Ordering :=
  natCmp a.toNat b.toNat

/-- Lexicographic comparison of character lists. -/
def charsCmp : List Char → List Char → Ordering
  | [], [] => .eq
  | [], _ :: _ => .lt
  | _ :: _, [] => .gt
  | a :: as_, b :: bs => (charCmp a b).then (charsCmp as_ bs)

/-- Comparison of two strings, modelling `Ord` for `syn::Ident`
(lexicographic on the text; for valid UTF-8, byte order and scalar-value
order agree). -/
def strCmp (a b : String) : Ordering :=
  charsCmp a.data b.data

/-- Lexicographic comparison of two identifier lists, modelling
`Iterator::cmp` over path segments in `Ord for UseKey`. -/
def listStrCmp : List String → List String → Ordering
  | [], [] => .eq
  | [], _ :: _ => .lt
  | _ :: _, [] => .gt
  | a :: as_, b :: bs => (strCmp a b).then (listStrCmp as_ bs)

/-- Comparison of two leaf names, modelling the derived `Ord` for
`map::key::Name`: variant order `Ident < Glob < Rename`, identifiers by
text, renames lexicographically by (original, alias). -/
def nameCmp : Name → Name → Ordering
  | .ident a, .ident b => strCmp a b
  | .ident _, _ => .lt
  | .glob, .ident _ => .gt
  | .glob, .glob => .eq
  | .glob, .rename _ _ => .lt
  | .rename a b, .rename c d => (strCmp a c).then (strCmp b d)
  | .rename _ _, _ => .gt

/-- Comparison of two visibilities, modelling the visibility part of
`Ord for UseKey` in `src/map/key.rs`: `Inherited` is less than everything
else, `Public` is greater than everything else, and two restricted
visibilities compare by `in`-token presence, then leading-colon presence,
then path segments.  The fall-through (equal) arms of the Rust `match`
yield `.eq` here and the comparison continues on the remaining key
fields. -/
def visCmp : Vis → Vis → Ordering
  | .pub, .pub => .eq
  | .inherited, .inherited => .eq
  | .pub, _ => .gt
  | .inherited, _ => .lt
  | .restricted _ _ _, .pub => .lt
  | .restricted _ _ _, .inherited => .gt
  | .restricted i1 c1 s1, .restricted i2 c2 s2 =>
    (boolCmp i1 i2).then ((boolCmp c1 c2).then (listStrCmp s1 s2))

/-- Model of `Ord for UseKey`: visibility, then leading colon, then name. -/
def keyCmp (k1 k2 : UseKey) : Ordering :=
  (visCmp k1.vis k2.vis).then
    ((boolCmp k1.leadColon k2.leadColon).then (nameCmp k1.name k2.name))

/-- Panic points of the program: each constructor stands for one `todo!()`
or failed `assert!` site.  The embedding returns `Except.error` exactly
where the Rust code panics. -/
inductive Panic where
  | todoDescendLeaf
  | todoDescendChildNode
  | todoEmptyPath
  | todoInsertChildNode
  | todoInsertAtLeaf
  | todoGroupInKey
  | todoSerialize
  | assertAttrsNonempty
deriving DecidableEq

/-- Model of `syn::UseTree`: a path segment followed by a subtree, a plain
name, a rename, a wildcard, or a braced group. -/
inductive UseTreeM where
  | path (ident : String) (tree : UseTreeM)
  | name (ident : String)
  | rename (orig ren : String)
  | glob
  | group (items : List UseTreeM)

/-- Model of `syn::ItemUse`: attached attributes (only emptiness is ever
inspected, so each attribute is just its text), visibility, leading-colon
flag, and the use tree. -/
structure ItemUse where
  attrs : List String
  vis : Vis
  leadColon : Bool
  tree : UseTreeM

/-- Name extraction for the key, from `Extend<ItemUse> for UseMap` in
`src/map/mod.rs`: the first path segment's ident, a sole name's ident, a
rename, or a glob; a top-level group hits a `todo!()`. -/
def keyOfTree : UseTreeM → Except Panic Name
  | .path i _ => .ok (.ident i)
  | .name i => .ok (.ident i)
  | .rename i r => .ok (.rename i r)
  | .glob => .ok .glob
  | .group _ => .error .todoGroupInKey

/-- Model of `map::UseMap`: one association list of key-to-items buckets
per category.  The Rust code uses `HashMap`s whose iteration order is
unspecified; the association lists record first-insertion order, which no
observable output depends on (`UseMap::take` sorts by key before use). -/
structure UseMapM where
  stdB : List (UseKey × List ItemUse)
  externalB : List (UseKey × List ItemUse)
  crateB : List (UseKey × List ItemUse)
deriving Inhabited

/-- Bucket list of one category. -/
def catBuckets (m : UseMapM) : Category → List (UseKey × List ItemUse)
  | .std => m.stdB
  | .external => m.externalB
  | .crate => m.crateB

/-- Replacement of one category's bucket list. -/
def setCat (m : UseMapM) : Category → List (UseKey × List ItemUse) → UseMapM
  | .std, l => { m with stdB := l }
  | .external, l => { m with externalB := l }
  | .crate, l => { m with crateB := l }

/-- Model of `entry(key).or_default().push(item)`: append the item to the
first bucket with this key, or append a fresh bucket at the end. -/
def addToBucket (k : UseKey) (it : ItemUse) :
    List (UseKey × List ItemUse) → List (UseKey × List ItemUse)
  | [] => [(k, [it])]
  | (k2, v) :: rest =>
    if k2 = k then (k2, v ++ [it]) :: rest
    else (k2, v) :: addToBucket k it rest

/-- Model of one iteration of `Extend<ItemUse> for UseMap`: assert the
item's attributes are empty (panic otherwise), extract the key name
(panic on a top-level group), build the key, classify by category, and
push the item into its bucket. -/
def extendOne (m : UseMapM) (item : ItemUse) : Except Panic UseMapM :=
  if item.attrs = [] then
    match keyOfTree item.tree with
    | .error e => .error e
    | .ok nm =>
      let k : UseKey := ⟨item.vis, item.leadColon, nm⟩
      .ok (setCat m (categoryOfName nm) (addToBucket k item (catBuckets m (categoryOfName nm))))
  else .error .assertAttrsNonempty

/-- Model of `Extend<ItemUse> for UseMap` over an item sequence. -/
def buildFrom (m : UseMapM) (items : List ItemUse) : Except Panic UseMapM :=
  items.foldlM extendOne m

/-- Model of `FromIterator<ItemUse> for UseMap`. -/
def buildMap (items : List ItemUse) : Except Panic UseMapM :=
  buildFrom ⟨[], [], []⟩ items

/-- Items stored under a key in a bucket list (first matching bucket). -/
def bucket : List (UseKey × List ItemUse) → UseKey → List ItemUse
  | [], _ => []
  | (k2, v) :: rest, k => if k2 = k then v else bucket rest k

/-- Items a `UseMap` holds under a key: the key's name determines the
category, as in `Extend<ItemUse> for UseMap`. -/
def mapBucket (m : UseMapM) (k : UseKey) : List ItemUse :=
  bucket (catBuckets m (categoryOfName k.name)) k

/-- Key that `Extend<ItemUse> for UseMap` assigns to an item, when the
item does not panic the categorizer (no attributes, non-group tree). -/
def keyOfItem (it : ItemUse) : Option UseKey :=
  if it.attrs = [] then
    match keyOfTree it.tree with
    | .ok nm => some ⟨it.vis, it.leadColon, nm⟩
    | .error _ => none
  else none

/-- Non-strict key order on buckets, as used by the sort in
`UseMap::take` (`sort_by(|(key, _), (other_key, _)| key.cmp(other_key))`). -/
def entryLe (a b : UseKey × List ItemUse) : Prop :=
  keyCmp a.1 b.1 ≠ .gt

instance : DecidableRel entryLe := fun a b => by
  unfold entryLe
  infer_instance

/-- Stable insertion into a key-sorted bucket list. -/
def insertEntry (x : UseKey × List ItemUse) :
    List (UseKey × List ItemUse) → List (UseKey × List ItemUse)
  | [] => [x]
  | y :: ys => if keyCmp x.1 y.1 ≠ .gt then x :: y :: ys else y :: insertEntry x ys

/-- Stable sort of a bucket list by key, modelling the `sort_by` call in
`UseMap::take`; Rust's slice sort is stable, and a stable sort's output is
uniquely determined by the comparator, so insertion sort is an exact
model. -/
def sortEntries (l : List (UseKey × List ItemUse)) : List (UseKey × List ItemUse) :=
  l.foldr insertEntry []

/-- Model of `UseMap::take`: the category's buckets sorted by key.  The
Rust method also removes the category from the map; `format` reads each
category exactly once, so the removal is not modelled. -/
def takeCat (m : UseMapM) (cat : Category) : List (UseKey × List ItemUse) :=
  sortEntries (catBuckets m cat)

/-- Model of `tree::Node` and the `GroupOrNode` a parent node holds:
a node is a leaf carrying a `Name`, or a parent whose child is a group
(list of nodes), or a parent whose child is directly another node (the
`GroupOrNode::Node` alternative, never constructed by the program but part
of the type). -/
inductive RNode where
  | leaf (name : Name)
  | parentGroup (ident : String) (children : List RNode)
  | parentNode (ident : String) (child : RNode)

/-- Model of the root `GroupOrNode` of a `tree::Tree`; `Tree::default`
makes it an empty group. -/
inductive Root where
  | group (children : List RNode)
  | node (n : RNode)

/-- Model of `Node::parent_ident`: the ident of a parent node. -/
def parentIdent : RNode → Option String
  | .parentGroup i _ => some i
  | .parentNode i _ => some i
  | .leaf _ => none

/-- Model of `Group::find_child_by_ident` with the position of the found
child retained: the part of the list before the first child whose
`parent_ident` is the segment, the child, and the rest.  Returning the
split lets the pure embedding rebuild the list that the Rust code mutates
through an `Rc`. -/
def splitAtParent (s : String) : List RNode → Option (List RNode × RNode × List RNode)
  | [] => none
  | c :: cs =>
    if parentIdent c = some s then some ([], c, cs)
    else (splitAtParent s cs).map (fun x => (c :: x.1, x.2.1, x.2.2))

/-- Model of `Node::self_leaf()`. -/
def selfLeafNode : RNode := .leaf Name.selfName

/-- Leaf-insertion helper of `Visitor::visit_name` (the `find_map` over the
final group): find the first parent-with-group child whose ident equals the
given identifier and append a synthesized self-leaf to that child's group;
`none` when no such child exists. -/
def pushSelfIntoFirst (nid : String) : List RNode → Option (List RNode)
  | [] => none
  | .parentGroup pid g :: cs =>
    if pid = nid then some (.parentGroup pid (g ++ [selfLeafNode]) :: cs)
    else (pushSelfIntoFirst nid cs).map (.parentGroup pid g :: ·)
  | c :: cs => (pushSelfIntoFirst nid cs).map (c :: ·)

/-- Final leaf insertion of `Visitor::visit_name` into the group reached
after the descent: if the leaf is a plain ident that names an existing
parent-with-group child, synthesize a self-leaf inside that child's group;
otherwise append the leaf to the group. -/
def insertLeafIntoGroup (name : Name) (children : List RNode) : List RNode :=
  match name with
  | .ident nid =>
    match pushSelfIntoFirst nid children with
    | some cs => cs
    | none => children ++ [.leaf name]
  | _ => children ++ [.leaf name]

/-- Insertion of the leaf at the final cursor node, modelling the
`match dbg!(cur)` tail of `Visitor::visit_name` for a `Node` cursor: a
parent-with-group gets the leaf inserted in its group; a parent whose
child is a node and a leaf cursor hit `todo!()` branches. -/
def insertAtNode (name : Name) : RNode → Except Panic RNode
  | .parentGroup id children => .ok (.parentGroup id (insertLeafIntoGroup name children))
  | .parentNode _ _ => .error .todoInsertChildNode
  | .leaf _ => .error .todoInsertAtLeaf

/-- Descent loop of `Visitor::visit_name` from a node cursor, one segment
at a time.  A leaf cursor whose ident equals the segment is promoted in
place to a parent with a group seeded by a self-leaf
(`Group::new_with_self`) and the descent continues from it; any other leaf
cursor hits `todo!()`.  A parent-with-group cursor descends into the first
child with the segment's ident, or appends a fresh empty parent for the
segment and descends into it.  A parent-with-node cursor hits `todo!()`.
After the last segment the leaf is inserted at the cursor. -/
def goNode : List String → Name → RNode → Except Panic RNode
  | [], name, n => insertAtNode name n
  | s :: rest, name, .leaf nm =>
    if nm = Name.ident s then goNode rest name (.parentGroup s [selfLeafNode])
    else .error .todoDescendLeaf
  | _ :: _, _, .parentNode _ _ => .error .todoDescendChildNode
  | s :: rest, name, .parentGroup id children =>
    match splitAtParent s children with
    | some (pre, c, post) =>
      (goNode rest name c).map (fun c2 => .parentGroup id (pre ++ c2 :: post))
    | none =>
      (goNode rest name (.parentGroup s [])).map
        (fun c2 => .parentGroup id (children ++ [c2]))

/-- Model of `Visitor::visit_name`: walk the current path down from the
tree's root, then insert the leaf.  With an empty path the cursor is still
the root group and the insertion hits the `todo!()` of the
`GroupOrNode::Group(..)` arm. -/
def visitName (path : List String) (name : Name) : Root → Except Panic Root
  | .group children =>
    match path with
    | [] => .error .todoEmptyPath
    | s :: rest =>
      match splitAtParent s children with
      | some (pre, c, post) =>
        (goNode rest name c).map (fun c2 => .group (pre ++ c2 :: post))
      | none =>
        (goNode rest name (.parentGroup s [])).map
          (fun c2 => .group (children ++ [c2]))
  | .node n => (goNode path name n).map .node

/-- One decomposed (path-segments, leaf) pair folded into the tree. -/
def insertPair (t : Root) (p : List String × Name) : Except Panic Root :=
  visitName p.1 p.2 t

/-- A sequence of decomposed pairs folded into an initially empty tree, as
`Tree::from_iter` does through the visitor. -/
def fromPairs (ps : List (List String × Name)) : Except Panic Root :=
  ps.foldlM insertPair (.group [])

mutual

/-- Model of `walk::walk_use_tree` with the tree visitor: the depth-first,
left-to-right sequence of (path-segments, leaf) pairs denoted by a use
tree, with `enter_path` and `leave_path` modelled by the path argument. -/
def walkPairs : UseTreeM → List String → List (List String × Name)
  | .path i t, p => walkPairs t (p ++ [i])
  | .name i, p => [(p, .ident i)]
  | .rename i r, p => [(p, .rename i r)]
  | .glob, p => [(p, .glob)]
  | .group items, p => walkTreeList items p

/-- Depth-first walk of a group's items (the `UseTree::Group` arm of
`walk_use_tree`). -/
def walkTreeList : List UseTreeM → List String → List (List String × Name)
  | [], _ => []
  | t :: ts, p => walkPairs t p ++ walkTreeList ts p

end

/-- Model of `FromIterator<UseTree> for Tree` composed with the visitor:
every tree is walked and each visited (path, leaf) pair is folded into an
initially empty merge tree. -/
def treeFromUseTrees (uts : List UseTreeM) : Except Panic Root :=
  (walkTreeList uts []).foldlM insertPair (.group [])

/-- Model of `From<Tree> for UseTree` in `src/tree/mod.rs`: the body is
`todo!()` (only a commented-out sketch exists), so serialization panics
for every tree. -/
def treeToUseTree : Root → Except Panic UseTreeM :=
  fun _ => .error .todoSerialize

mutual

/-- Rendering of a use tree, modelling `AsDisplay for UseTree` in
`src/display.rs`: paths join with `::`, renames print as `x as y`, globs
as `*`, groups as comma-separated braced lists. -/
def renderUseTree : UseTreeM → String
  | .path i t => i ++ "::" ++ renderUseTree t
  | .name i => i
  | .rename i r => i ++ " as " ++ r
  | .glob => "*"
  | .group items => "\x7b" ++ renderTreeList items ++ "\x7d"

/-- Comma-separated rendering of a group's items (`punctuated`). -/
def renderTreeList : List UseTreeM → String
  | [] => ""
  | [t] => renderUseTree t
  | t :: ts => renderUseTree t ++ ", " ++ renderTreeList ts

end

/-- Rendering of path segments joined by `::` (`AsDisplay for Path`). -/
def renderPathSegs : List String → String
  | [] => ""
  | [s] => s
  | s :: ss => s ++ "::" ++ renderPathSegs ss

/-- Rendering of a visibility, modelling `AsDisplay for Visibility`. -/
def renderVis : Vis → String
  | .pub => "pub "
  | .inherited => ""
  | .restricted inTok leadColon segs =>
    "pub(" ++ (if inTok then "in " else "") ++
      (if leadColon then "::" else "") ++ renderPathSegs segs ++ ") "

/-- Rendering of a whole use item, modelling `AsDisplay for ItemUse`. -/
def renderItemUse (it : ItemUse) : String :=
  renderVis it.vis ++ "use " ++ (if it.leadColon then "::" else "") ++
    renderUseTree it.tree ++ ";"

/-- Parsed item stream of a source file, as `format` sees it after
`syn::parse_file`: use items interspersed with other items; an `other`
carries the source text that `format` copies through unchanged (including
surrounding trivia, which `format` slices out of the original text by byte
range). -/
inductive Item where
  | use_ (u : ItemUse)
  | other (text : String)

/-- A maximal chunk of the item stream: a run of non-import text, or a
contiguous run of use items. -/
inductive Chunk where
  | text (t : String)
  | uses (us : List ItemUse)

/-- Split of the item stream into maximal chunks, mirroring the
`next_if`/`map_while` loop of `format` in `src/lib.rs`. -/
def chunks : List Item → List Chunk
  | [] => []
  | .other t :: rest => .text t :: chunks rest
  | .use_ u :: rest =>
    match chunks rest with
    | .uses us :: cs => .uses (u :: us) :: cs
    | cs => .uses [u] :: cs

/-- Emission of one (key, items) bucket as one output statement: build the
merge tree from the items' use trees, serialize it, and render a use item
with the key's visibility and leading colon (`writeln!` appends a
newline). -/
def emitEntry (e : UseKey × List ItemUse) : Except Panic String := do
  let t ← treeFromUseTrees (e.2.map (fun it => it.tree))
  let ut ← treeToUseTree t
  .ok (renderItemUse ⟨[], e.1.vis, e.1.leadColon, ut⟩ ++ "\n")

/-- Emission of one category block: every bucket of the category in key
order, one statement per bucket. -/
def emitCategory (entries : List (UseKey × List ItemUse)) : Except Panic String :=
  entries.foldlM (fun acc e => do
    let s ← emitEntry e
    .ok (acc ++ s)) ""

/-- Emission of one contiguous run of use items, mirroring the per-run body
of `format`: collect the items into a `UseMap`, then emit the categories in
the fixed order Std, External, Crate, each followed by one blank line
(the unconditional `writeln!(output)` after the inner loop). -/
def emitRun (us : List ItemUse) : Except Panic String := do
  let m ← buildMap us
  [Category.std, Category.external, Category.crate].foldlM (fun acc cat => do
    let s ← emitCategory (takeCat m cat)
    .ok (acc ++ s ++ "\n")) ""

/-- Model of `format` in `src/lib.rs` over the parsed item stream:
non-import text is copied through byte-for-byte and every contiguous run
of use items is replaced by its emitted category blocks. -/
def formatModel (items : List Item) : Except Panic String :=
  (chunks items).foldlM (fun acc c =>
    match c with
    | .text t => .ok (acc ++ t)
    | .uses us => (emitRun us).map (fun s => acc ++ s)) ""

-- Structural measures and denotations of merge trees, used to state the
-- order-insensitivity and idempotence claims.

mutual

/-- Total number of leaves of a node. -/
def countN : RNode → Nat
  | .leaf _ => 1
  | .parentNode _ c => countN c
  | .parentGroup _ cs => countL cs

/-- Total number of leaves of a node list. -/
def countL : List RNode → Nat
  | [] => 0
  | c :: cs => countN c + countL cs

end

/-- Total number of leaves of a tree. -/
def countRoot : Root → Nat
  | .group cs => countL cs
  | .node n => countN n

mutual

/-- All (path, leaf-name) pairs of a node, each leaf tagged with the path
of parent idents above it. -/
def leafPairsN (path : List String) : RNode → List (List String × Name)
  | .leaf nm => [(path, nm)]
  | .parentGroup id cs => leafPairsL (path ++ [id]) cs
  | .parentNode id c => leafPairsN (path ++ [id]) c

/-- All (path, leaf-name) pairs of a node list. -/
def leafPairsL (path : List String) : List RNode → List (List String × Name)
  | [] => []
  | c :: cs => leafPairsN path c ++ leafPairsL path cs

end

/-- All (path, leaf-name) pairs of a tree. -/
def leafPairsRoot : Root → List (List String × Name)
  | .group cs => leafPairsL [] cs
  | .node n => leafPairsN [] n

mutual

/-- Paths of all interior (parent) nodes of a node. -/
def interiorsN (path : List String) : RNode → List (List String)
  | .leaf _ => []
  | .parentGroup id cs => (path ++ [id]) :: interiorsL (path ++ [id]) cs
  | .parentNode id c => (path ++ [id]) :: interiorsN (path ++ [id]) c

/-- Paths of all interior (parent) nodes of a node list. -/
def interiorsL (path : List String) : List RNode → List (List String)
  | [] => []
  | c :: cs => interiorsN path c ++ interiorsL path cs

end

/-- Paths of all interior (parent) nodes of a tree. -/
def interiorsRoot : Root → List (List String)
  | .group cs => interiorsL [] cs
  | .node n => interiorsN [] n

/-- Structural equivalence of two merge trees in the sense of the
determinism requirement: the same set of interior nodes, the same set of
leaves (with their paths, self-leaves included), differing at most in
child ordering. -/
def structEquiv (t1 t2 : Root) : Prop :=
  (∀ x, x ∈ leafPairsRoot t1 ↔ x ∈ leafPairsRoot t2) ∧
    (∀ p, p ∈ interiorsRoot t1 ↔ p ∈ interiorsRoot t2)

-- Decidable equality for the tree types (the `deriving` handler does not
-- support nested inductives, so the instances are written out).

mutual

/-- Boolean equality of nodes. -/
def beqN : RNode → RNode → Bool
  | .leaf a, .leaf b => a == b
  | .parentGroup i cs, .parentGroup j ds => i == j && beqL cs ds
  | .parentNode i c, .parentNode j d => i == j && beqN c d
  | _, _ => false

/-- Boolean equality of node lists. -/
def beqL : List RNode → List RNode → Bool
  | [], [] => true
  | c :: cs, d :: ds => beqN c d && beqL cs ds
  | _, _ => false

end

mutual

/-- Boolean equality of use trees. -/
def beqT : UseTreeM → UseTreeM → Bool
  | .path i t, .path j u => i == j && beqT t u
  | .name i, .name j => i == j
  | .rename a b, .rename c d => a == c && b == d
  | .glob, .glob => true
  | .group ts, .group us => beqTL ts us
  | _, _ => false

/-- Boolean equality of use tree lists. -/
def beqTL : List UseTreeM → List UseTreeM → Bool
  | [], [] => true
  | t :: ts, u :: us => beqT t u && beqTL ts us
  | _, _ => false

end

mutual

theorem beqN_iff : ∀ a b : RNode, beqN a b = true ↔ a = b
  | .leaf _, .leaf _ => by simp [beqN]
  | .parentGroup _ cs, .parentGroup _ ds => by simp [beqN, beqL_iff cs ds]
  | .parentNode _ c, .parentNode _ d => by simp [beqN, beqN_iff c d]
  | .leaf _, .parentGroup _ _ => by simp [beqN]
  | .leaf _, .parentNode _ _ => by simp [beqN]
  | .parentGroup _ _, .leaf _ => by simp [beqN]
  | .parentGroup _ _, .parentNode _ _ => by simp [beqN]
  | .parentNode _ _, .leaf _ => by simp [beqN]
  | .parentNode _ _, .parentGroup _ _ => by simp [beqN]

theorem beqL_iff : ∀ a b : List RNode, beqL a b = true ↔ a = b
  | [], [] => by simp [beqL]
  | c :: cs, d :: ds => by simp [beqL, beqN_iff c d, beqL_iff cs ds]
  | [], _ :: _ => by simp [beqL]
  | _ :: _, [] => by simp [beqL]

end

instance : DecidableEq RNode := fun a b =>
  decidable_of_iff (beqN a b = true) (beqN_iff a b)

instance : DecidableEq Root := fun a b =>
  match a, b with
  | .group cs, .group ds =>
    decidable_of_iff (cs = ds) (by simp)
  | .node c, .node d =>
    decidable_of_iff (c = d) (by simp)
  | .group _, .node _ => isFalse (by simp)
  | .node _, .group _ => isFalse (by simp)

mutual

theorem beqT_iff : ∀ a b : UseTreeM, beqT a b = true ↔ a = b
  | .path _ t, .path _ u => by simp [beqT, beqT_iff t u]
  | .name _, .name _ => by simp [beqT]
  | .rename _ _, .rename _ _ => by simp [beqT]
  | .glob, .glob => by simp [beqT]
  | .group ts, .group us => by simp [beqT, beqTL_iff ts us]
  | .path _ _, .name _ => by simp [beqT]
  | .path _ _, .rename _ _ => by simp [beqT]
  | .path _ _, .glob => by simp [beqT]
  | .path _ _, .group _ => by simp [beqT]
  | .name _, .path _ _ => by simp [beqT]
  | .name _, .rename _ _ => by simp [beqT]
  | .name _, .glob => by simp [beqT]
  | .name _, .group _ => by simp [beqT]
  | .rename _ _, .path _ _ => by simp [beqT]
  | .rename _ _, .name _ => by simp [beqT]
  | .rename _ _, .glob => by simp [beqT]
  | .rename _ _, .group _ => by simp [beqT]
  | .glob, .path _ _ => by simp [beqT]
  | .glob, .name _ => by simp [beqT]
  | .glob, .rename _ _ => by simp [beqT]
  | .glob, .group _ => by simp [beqT]
  | .group _, .path _ _ => by simp [beqT]
  | .group _, .name _ => by simp [beqT]
  | .group _, .rename _ _ => by simp [beqT]
  | .group _, .glob => by simp [beqT]

theorem beqTL_iff : ∀ a b : List UseTreeM, beqTL a b = true ↔ a = b
  | [], [] => by simp [beqTL]
  | t :: ts, u :: us => by simp [beqTL, beqT_iff t u, beqTL_iff ts us]
  | [], _ :: _ => by simp [beqTL]
  | _ :: _, [] => by simp [beqTL]

end

instance : DecidableEq UseTreeM := fun a b =>
  decidable_of_iff (beqT a b = true) (beqT_iff a b)

instance : DecidableEq ItemUse := fun a b =>
  match a, b with
  | ⟨at1, v1, c1, t1⟩, ⟨at2, v2, c2, t2⟩ =>
    decidable_of_iff (at1 = at2 ∧ v1 = v2 ∧ c1 = c2 ∧ t1 = t2) (by simp [ItemUse.mk.injEq])

/-- Example item `use a::x;`: undecorated, private, no leading colon. -/
def itemAX : ItemUse := ⟨[], .inherited, false, .path ("a") (.name ("x"))⟩

/-- Example item `use b::y;`: undecorated, private, no leading colon. -/
def itemBY : ItemUse := ⟨[], .inherited, false, .path ("b") (.name ("y"))⟩

/-- Key the categorizer computes for `itemAX`. -/
def keyA : UseKey := ⟨.inherited, false, .ident ("a")⟩

/-- Key the categorizer computes for `itemBY`. -/
def keyB : UseKey := ⟨.inherited, false, .ident ("b")⟩

/-- The `UseMap` built from `[itemAX, itemBY]`: both items are External,
but they land in two distinct key buckets. -/
def mapAB : UseMapM := ⟨[], [(keyA, [itemAX]), (keyB, [itemBY])], []⟩

-- Basic facts about `Ordering.then` used to reason about the
-- lexicographically composed comparisons above.

theorem thenEqIff (a b : Ordering) : a.then b = .eq ↔ a = .eq ∧ b = .eq := by
  cases a <;> simp [Ordering.then]

theorem thenLtIff (a b : Ordering) :
    a.then b = .lt ↔ a = .lt ∨ (a = .eq ∧ b = .lt) := by
  cases a <;> simp [Ordering.then]

theorem thenSwap (a b : Ordering) : (a.then b).swap = a.swap.then b.swap := by
  cases a <;> cases b <;> rfl

theorem boolCmpEqIff (a b : Bool) : boolCmp a b = .eq ↔ a = b := by
  revert a b; decide

theorem boolCmpSwap (a b : Bool) : (boolCmp a b).swap = boolCmp b a := by
  revert a b; decide

theorem boolCmpLtTrans (a b c : Bool) :
    boolCmp a b = .lt → boolCmp b c = .lt → boolCmp a c = .lt := by
  revert a b c; decide

theorem natCmpEqIff (a b : Nat) : natCmp a b = .eq ↔ a = b := by
  unfold natCmp
  split
  · next h =>
    simp only [reduceCtorEq, false_iff]
    omega
  · split
    · next h => simp [h]
    · next h => simp [h]

theorem natCmpSwap (a b : Nat) : (natCmp a b).swap = natCmp b a := by
  unfold natCmp
  rcases Nat.lt_trichotomy a b with h | h | h
  · rw [if_pos h, if_neg (by omega), if_neg (by omega)]
    rfl
  · subst h
    rw [if_neg (by omega), if_pos rfl]
    rfl
  · rw [if_neg (by omega), if_neg (by omega), if_pos h]
    rfl

theorem natCmpLtIff (a b : Nat) : natCmp a b = .lt ↔ a < b := by
  unfold natCmp
  split
  · next h => simp [h]
  · next h =>
    split
    · simp only [reduceCtorEq, false_iff]
      omega
    · simp only [reduceCtorEq, false_iff]
      omega

theorem charToNatInj (a b : Char) : a.toNat = b.toNat ↔ a = b := by
  constructor
  · intro h
    exact Char.eq_of_val_eq (UInt32.toNat.inj h)
  · intro h
    rw [h]

theorem strDataInj (a b : String) : a.data = b.data ↔ a = b := by
  constructor
  · intro h
    cases a
    cases b
    exact congrArg String.mk h
  · intro h
    rw [h]

theorem charCmpEqIff (a b : Char) : charCmp a b = .eq ↔ a = b := by
  unfold charCmp
  rw [natCmpEqIff]
  exact charToNatInj a b

theorem charCmpSwap (a b : Char) : (charCmp a b).swap = charCmp b a :=
  natCmpSwap a.toNat b.toNat

theorem charCmpLtTrans (a b c : Char) :
    charCmp a b = .lt → charCmp b c = .lt → charCmp a c = .lt := by
  unfold charCmp
  simp only [natCmpLtIff]
  omega

theorem charsCmpEqIff (a b : List Char) : charsCmp a b = .eq ↔ a = b := by
  induction a generalizing b with
  | nil => cases b <;> simp [charsCmp]
  | cons x xs ih =>
    cases b with
    | nil => simp [charsCmp]
    | cons y ys => simp [charsCmp, thenEqIff, charCmpEqIff, ih]

theorem charsCmpSwap (a b : List Char) :
    (charsCmp a b).swap = charsCmp b a := by
  induction a generalizing b with
  | nil => cases b <;> rfl
  | cons x xs ih =>
    cases b with
    | nil => rfl
    | cons y ys => simp [charsCmp, thenSwap, charCmpSwap, ih]

theorem charsCmpLtTrans (a b c : List Char) :
    charsCmp a b = .lt → charsCmp b c = .lt → charsCmp a c = .lt := by
  induction b generalizing a c with
  | nil =>
    intro h1 _
    cases a <;> simp [charsCmp] at h1
  | cons y ys ih =>
    intro h1 h2
    cases a with
    | nil =>
      cases c with
      | nil => simp [charsCmp] at h2
      | cons z zs => simp [charsCmp]
    | cons x xs =>
      cases c with
      | nil => simp [charsCmp] at h2
      | cons z zs =>
        simp only [charsCmp, thenLtIff, charCmpEqIff] at h1 h2 ⊢
        rcases h1 with h1 | ⟨h1e, h1t⟩ <;> rcases h2 with h2 | ⟨h2e, h2t⟩
        · exact Or.inl (charCmpLtTrans _ _ _ h1 h2)
        · exact Or.inl (h2e ▸ h1)
        · exact Or.inl (h1e ▸ h2)
        · exact Or.inr ⟨h1e.trans h2e, ih _ _ h1t h2t⟩

theorem strCmpEqIff (a b : String) : strCmp a b = .eq ↔ a = b := by
  unfold strCmp
  rw [charsCmpEqIff]
  exact strDataInj a b

theorem strCmpSwap (a b : String) : (strCmp a b).swap = strCmp b a :=
  charsCmpSwap a.data b.data

theorem strCmpLtTrans (a b c : String) :
    strCmp a b = .lt → strCmp b c = .lt → strCmp a c = .lt :=
  charsCmpLtTrans a.data b.data c.data

theorem listStrCmpEqIff (a b : List String) : listStrCmp a b = .eq ↔ a = b := by
  induction a generalizing b with
  | nil => cases b <;> simp [listStrCmp]
  | cons x xs ih =>
    cases b with
    | nil => simp [listStrCmp]
    | cons y ys => simp [listStrCmp, thenEqIff, strCmpEqIff, ih]

theorem listStrCmpSwap (a b : List String) :
    (listStrCmp a b).swap = listStrCmp b a := by
  induction a generalizing b with
  | nil => cases b <;> rfl
  | cons x xs ih =>
    cases b with
    | nil => rfl
    | cons y ys => simp [listStrCmp, thenSwap, strCmpSwap, ih]

theorem listStrCmpLtTrans (a b c : List String) :
    listStrCmp a b = .lt → listStrCmp b c = .lt → listStrCmp a c = .lt := by
  induction b generalizing a c with
  | nil =>
    intro h1 _
    cases a <;> simp [listStrCmp] at h1
  | cons y ys ih =>
    intro h1 h2
    cases a with
    | nil =>
      cases c with
      | nil => simp [listStrCmp] at h2
      | cons z zs => simp [listStrCmp]
    | cons x xs =>
      cases c with
      | nil => simp [listStrCmp] at h2
      | cons z zs =>
        simp only [listStrCmp, thenLtIff, strCmpEqIff] at h1 h2 ⊢
        rcases h1 with h1 | ⟨h1e, h1t⟩ <;> rcases h2 with h2 | ⟨h2e, h2t⟩
        · exact Or.inl (strCmpLtTrans _ _ _ h1 h2)
        · exact Or.inl (h2e ▸ h1)
        · exact Or.inl (h1e ▸ h2)
        · exact Or.inr ⟨h1e.trans h2e, ih _ _ h1t h2t⟩

theorem nameCmpEqIff (a b : Name) : nameCmp a b = .eq ↔ a = b := by
  cases a <;> cases b <;>
    simp [nameCmp, thenEqIff, strCmpEqIff]

theorem nameCmpSwap (a b : Name) : (nameCmp a b).swap = nameCmp b a := by
  cases a <;> cases b <;>
    first
    | rfl
    | simp [nameCmp, thenSwap, strCmpSwap]

theorem nameCmpLtTrans (a b c : Name) :
    nameCmp a b = .lt → nameCmp b c = .lt → nameCmp a c = .lt := by
  cases a <;> cases b <;> cases c <;>
    simp only [nameCmp, thenLtIff, strCmpEqIff, reduceCtorEq, false_and,
      or_false, false_or, and_false, false_implies, implies_true] <;>
    intro h1 h2
  · exact strCmpLtTrans _ _ _ h1 h2
  all_goals
    first
    | rfl
    | (rcases h1 with h1 | ⟨h1e, h1t⟩ <;> rcases h2 with h2 | ⟨h2e, h2t⟩
       · exact Or.inl (strCmpLtTrans _ _ _ h1 h2)
       · exact Or.inl (h2e ▸ h1)
       · exact Or.inl (h1e ▸ h2)
       · exact Or.inr ⟨h1e.trans h2e, strCmpLtTrans _ _ _ h1t h2t⟩)

theorem visCmpEqIff (a b : Vis) : visCmp a b = .eq ↔ a = b := by
  cases a <;> cases b <;>
    simp [visCmp, thenEqIff, boolCmpEqIff, listStrCmpEqIff]

theorem visCmpSwap (a b : Vis) : (visCmp a b).swap = visCmp b a := by
  cases a <;> cases b <;>
    first
    | rfl
    | simp [visCmp, thenSwap, boolCmpSwap, listStrCmpSwap]

theorem visCmpLtTrans (a b c : Vis) :
    visCmp a b = .lt → visCmp b c = .lt → visCmp a c = .lt := by
  cases a <;> cases b <;> cases c <;>
    simp only [visCmp, thenLtIff, boolCmpEqIff, reduceCtorEq, false_and,
      or_false, false_or, and_false, false_implies, implies_true]
  all_goals
    first
    | rfl
    | intro h1 h2
  all_goals
    first
    | rfl
    | (rcases h1 with h1 | ⟨h1e, h1t⟩ <;> rcases h2 with h2 | ⟨h2e, h2t⟩
       · exact Or.inl (boolCmpLtTrans _ _ _ h1 h2)
       · exact Or.inl (h2e ▸ h1)
       · exact Or.inl (h1e ▸ h2)
       · refine Or.inr ⟨h1e.trans h2e, ?_⟩
         rcases h1t with h1t | ⟨h1te, h1tt⟩ <;> rcases h2t with h2t | ⟨h2te, h2tt⟩
         · exact Or.inl (boolCmpLtTrans _ _ _ h1t h2t)
         · exact Or.inl (h2te ▸ h1t)
         · exact Or.inl (h1te ▸ h2t)
         · exact Or.inr ⟨h1te.trans h2te, listStrCmpLtTrans _ _ _ h1tt h2tt⟩)

theorem keyCmpEqIff (a b : UseKey) : keyCmp a b = .eq ↔ a = b := by
  cases a; cases b
  simp [keyCmp, thenEqIff, visCmpEqIff, boolCmpEqIff, nameCmpEqIff,
    UseKey.mk.injEq, and_assoc]

theorem keyCmpSwap (a b : UseKey) : (keyCmp a b).swap = keyCmp b a := by
  cases a; cases b
  simp [keyCmp, thenSwap, visCmpSwap, boolCmpSwap, nameCmpSwap]

theorem keyCmpLtTrans (a b c : UseKey) :
    keyCmp a b = .lt → keyCmp b c = .lt → keyCmp a c = .lt := by
  cases a; cases b; cases c
  simp only [keyCmp, thenLtIff, visCmpEqIff, boolCmpEqIff]
  intro h1 h2
  rcases h1 with h1 | ⟨h1e, h1t⟩ <;> rcases h2 with h2 | ⟨h2e, h2t⟩
  · exact Or.inl (visCmpLtTrans _ _ _ h1 h2)
  · exact Or.inl (h2e ▸ h1)
  · exact Or.inl (h1e ▸ h2)
  · refine Or.inr ⟨h1e.trans h2e, ?_⟩
    rcases h1t with h1t | ⟨h1te, h1tt⟩ <;> rcases h2t with h2t | ⟨h2te, h2tt⟩
    · exact Or.inl (boolCmpLtTrans _ _ _ h1t h2t)
    · exact Or.inl (h2te ▸ h1t)
    · exact Or.inl (h1te ▸ h2t)
    · exact Or.inr ⟨h1te.trans h2te, nameCmpLtTrans _ _ _ h1tt h2tt⟩

instance instDecEqExceptP {ε α : Type} [DecidableEq ε] [DecidableEq α] :
    DecidableEq (Except ε α) := fun a b =>
  match a, b with
  | .ok x, .ok y => decidable_of_iff (x = y) (by simp)
  | .error x, .error y => decidable_of_iff (x = y) (by simp)
  | .ok _, .error _ => isFalse (by simp)
  | .error _, .ok _ => isFalse (by simp)

instance : DecidableEq UseMapM := fun a b =>
  decidable_of_iff (a.stdB = b.stdB ∧ a.externalB = b.externalB ∧ a.crateB = b.crateB)
    (by cases a; cases b; simp [UseMapM.mk.injEq])

-- Leaf counting: every successful insertion adds at least one leaf to the
-- merge tree.  This is the engine of the idempotence analysis.

theorem splitAtParent_eq (s : String) :
    ∀ (cs pre : List RNode) (c : RNode) (post : List RNode),
      splitAtParent s cs = some (pre, c, post) → cs = pre ++ c :: post := by
  intro cs
  induction cs with
  | nil => intro pre c post h; simp [splitAtParent] at h
  | cons c0 cs0 ih =>
    intro pre c post h
    unfold splitAtParent at h
    split at h
    · simp only [Option.some.injEq, Prod.mk.injEq] at h
      obtain ⟨h1, h2, h3⟩ := h
      subst h1; subst h2; subst h3
      rfl
    · rcases ho : splitAtParent s cs0 with _ | ⟨⟨p1, c1, p2⟩⟩ <;> rw [ho] at h
      · simp at h
      · simp only [Option.map_some', Option.some.injEq, Prod.mk.injEq] at h
        obtain ⟨h1, h2, h3⟩ := h
        subst h1; subst h2; subst h3
        simpa using congrArg (c0 :: ·) (ih _ _ _ ho)

theorem countL_append (a b : List RNode) :
    countL (a ++ b) = countL a + countL b := by
  induction a with
  | nil => simp [countL]
  | cons c cs ih =>
    simp only [List.cons_append, countL, List.append_eq, ih]
    omega

theorem pushSelf_count (nid : String) :
    ∀ cs cs2, pushSelfIntoFirst nid cs = some cs2 → countL cs2 = countL cs + 1 := by
  intro cs
  induction cs with
  | nil => intro cs2 h; simp [pushSelfIntoFirst] at h
  | cons c0 cs0 ih =>
    intro cs2 h
    cases c0 with
    | parentGroup pid g =>
      unfold pushSelfIntoFirst at h
      split at h
      · simp only [Option.some.injEq] at h
        subst h
        simp only [countL, countN, countL_append, selfLeafNode]
        simp [countL, countN]
        omega
      · rcases ho : pushSelfIntoFirst nid cs0 with _ | cs1 <;> rw [ho] at h
        · simp at h
        · simp only [Option.map_some', Option.some.injEq] at h
          subst h
          simp only [countL, countN, ih _ ho]
          omega
    | leaf nm =>
      unfold pushSelfIntoFirst at h
      rcases ho : pushSelfIntoFirst nid cs0 with _ | cs1 <;> rw [ho] at h
      · simp at h
      · simp only [Option.map_some', Option.some.injEq] at h
        subst h
        simp only [countL, ih _ ho]
        omega
    | parentNode i d =>
      unfold pushSelfIntoFirst at h
      rcases ho : pushSelfIntoFirst nid cs0 with _ | cs1 <;> rw [ho] at h
      · simp at h
      · simp only [Option.map_some', Option.some.injEq] at h
        subst h
        simp only [countL, ih _ ho]
        omega

theorem insertLeaf_count (name : Name) (cs : List RNode) :
    countL (insertLeafIntoGroup name cs) = countL cs + 1 := by
  cases name with
  | ident nid =>
    rcases ho : pushSelfIntoFirst nid cs with _ | cs2
    · simp [insertLeafIntoGroup, ho, countL_append, countL, countN]
    · simp only [insertLeafIntoGroup, ho]
      exact pushSelf_count nid cs cs2 ho
  | glob => simp [insertLeafIntoGroup, countL_append, countL, countN]
  | rename a b => simp [insertLeafIntoGroup, countL_append, countL, countN]

theorem insertAtNode_count (name : Name) (n n2 : RNode) :
    insertAtNode name n = .ok n2 → countN n < countN n2 := by
  cases n with
  | parentGroup id cs =>
    intro h
    simp only [insertAtNode, Except.ok.injEq] at h
    subst h
    simp only [countN, insertLeaf_count]
    omega
  | parentNode i c =>
    intro h
    simp [insertAtNode] at h
  | leaf nm =>
    intro h
    simp [insertAtNode] at h

theorem goNode_count :
    ∀ (segs : List String) (name : Name) (n n2 : RNode),
      goNode segs name n = .ok n2 → countN n < countN n2 := by
  intro segs
  induction segs with
  | nil =>
    intro name n n2 h
    exact insertAtNode_count name n n2 h
  | cons s rest ih =>
    intro name n n2 h
    cases n with
    | leaf nm =>
      simp only [goNode] at h
      split at h
      · have hlt := ih name _ _ h
        simp only [countN, countL, selfLeafNode] at hlt ⊢
        omega
      · exact absurd h (by simp)
    | parentNode i c =>
      simp [goNode] at h
    | parentGroup id cs =>
      simp only [goNode] at h
      rcases ho : splitAtParent s cs with _ | ⟨⟨pre, c, post⟩⟩ <;>
        simp only [ho] at h
      · rcases hg : goNode rest name (.parentGroup s []) with e | c2 <;>
          simp only [hg, Except.map, Except.ok.injEq] at h
        · exact absurd h (by simp)
        · subst h
          have hlt := ih name _ _ hg
          simp only [countN, countL] at hlt
          simp only [countN, countL_append, countL]
          omega
      · rcases hg : goNode rest name c with e | c2 <;>
          simp only [hg, Except.map, Except.ok.injEq] at h
        · exact absurd h (by simp)
        · subst h
          have hlt := ih name _ _ hg
          have hcs := splitAtParent_eq s cs pre c post ho
          subst hcs
          simp only [countN, countL_append, countL]
          omega

theorem visitName_count (path : List String) (name : Name) (t t2 : Root) :
    visitName path name t = .ok t2 → countRoot t < countRoot t2 := by
  cases t with
  | node n =>
    intro h
    simp only [visitName] at h
    rcases hg : goNode path name n with e | n2 <;>
      simp only [hg, Except.map, Except.ok.injEq] at h
    · exact absurd h (by simp)
    · subst h
      simpa [countRoot] using goNode_count path name n n2 hg
  | group cs =>
    intro h
    cases path with
    | nil => simp [visitName] at h
    | cons s rest =>
      simp only [visitName] at h
      rcases ho : splitAtParent s cs with _ | ⟨⟨pre, c, post⟩⟩ <;>
        simp only [ho] at h
      · rcases hg : goNode rest name (.parentGroup s []) with e | c2 <;>
          simp only [hg, Except.map, Except.ok.injEq] at h
        · exact absurd h (by simp)
        · subst h
          have hlt := goNode_count rest name _ _ hg
          simp only [countN, countL] at hlt
          simp only [countRoot, countL_append, countL]
          omega
      · rcases hg : goNode rest name c with e | c2 <;>
          simp only [hg, Except.map, Except.ok.injEq] at h
        · exact absurd h (by simp)
        · subst h
          have hlt := goNode_count rest name _ _ hg
          have hcs := splitAtParent_eq s cs pre c post ho
          subst hcs
          simp only [countRoot, countL_append, countL]
          omega

-- Sortedness of `UseMap::take`: the key comparison is lawful, so the
-- insertion-sort model produces a key-sorted permutation of the buckets.

theorem entryLeTotal (a b : UseKey × List ItemUse) : entryLe a b ∨ entryLe b a := by
  unfold entryLe
  by_cases h : keyCmp a.1 b.1 = .gt
  · right
    rw [← keyCmpSwap a.1 b.1, h]
    simp [Ordering.swap]
  · left
    exact h

theorem entryLeTrans (a b c : UseKey × List ItemUse) :
    entryLe a b → entryLe b c → entryLe a c := by
  unfold entryLe
  intro h1 h2
  rcases hab : keyCmp a.1 b.1 with _ | _ | _
  · rcases hbc : keyCmp b.1 c.1 with _ | _ | _
    · simp [keyCmpLtTrans _ _ _ hab hbc]
    · rw [(keyCmpEqIff _ _).mp hbc] at hab
      simp [hab]
    · exact absurd hbc h2
  · rw [(keyCmpEqIff _ _).mp hab]
    exact h2
  · exact absurd hab h1

theorem mem_insertEntry (x y : UseKey × List ItemUse) (l : List (UseKey × List ItemUse)) :
    y ∈ insertEntry x l ↔ y = x ∨ y ∈ l := by
  induction l with
  | nil => simp [insertEntry]
  | cons z zs ih =>
    unfold insertEntry
    split
    · simp
    · simp [ih]
      tauto

theorem pairwise_insertEntry (x : UseKey × List ItemUse) :
    ∀ l : List (UseKey × List ItemUse),
      l.Pairwise entryLe → (insertEntry x l).Pairwise entryLe := by
  intro l
  induction l with
  | nil =>
    intro _
    simp [insertEntry]
  | cons z zs ih =>
    intro h
    rw [List.pairwise_cons] at h
    obtain ⟨hz, hzs⟩ := h
    unfold insertEntry
    split
    · next hle =>
      rw [List.pairwise_cons]
      constructor
      · intro y hy
        rcases List.mem_cons.mp hy with rfl | hy2
        · exact hle
        · exact entryLeTrans x z y hle (hz y hy2)
      · rw [List.pairwise_cons]
        exact ⟨hz, hzs⟩
    · next hgt =>
      rw [List.pairwise_cons]
      constructor
      · intro y hy
        rcases (mem_insertEntry x y zs).mp hy with rfl | hy2
        · rcases entryLeTotal y z with hxz | hzx
          · exact absurd hxz hgt
          · exact hzx
        · exact hz y hy2
      · exact ih hzs

theorem perm_insertEntry (x : UseKey × List ItemUse) (l : List (UseKey × List ItemUse)) :
    (insertEntry x l).Perm (x :: l) := by
  induction l with
  | nil => simp [insertEntry]
  | cons z zs ih =>
    unfold insertEntry
    split
    · exact List.Perm.refl _
    · exact (List.Perm.cons z ih).trans (List.Perm.swap x z zs)

theorem sortEntries_pairwise (l : List (UseKey × List ItemUse)) :
    (sortEntries l).Pairwise entryLe := by
  induction l with
  | nil => simp [sortEntries]
  | cons x xs ih =>
    show (insertEntry x (sortEntries xs)).Pairwise entryLe
    exact pairwise_insertEntry x (sortEntries xs) ih

theorem sortEntries_perm (l : List (UseKey × List ItemUse)) :
    (sortEntries l).Perm l := by
  induction l with
  | nil => simp [sortEntries]
  | cons x xs ih =>
    show (insertEntry x (sortEntries xs)).Perm (x :: xs)
    exact (perm_insertEntry x (sortEntries xs)).trans (List.Perm.cons x ih)

-- Grouping: an item lands in exactly the bucket of its own key, so two
-- items are merged into one output statement iff their keys agree.

theorem setCat_catBuckets (m : UseMapM) (c c2 : Category)
    (l : List (UseKey × List ItemUse)) :
    catBuckets (setCat m c l) c2 = if c2 = c then l else catBuckets m c2 := by
  cases c <;> cases c2 <;> simp [setCat, catBuckets]

theorem bucket_addToBucket (k2 : UseKey) (it : ItemUse) :
    ∀ (l : List (UseKey × List ItemUse)) (k : UseKey),
      bucket (addToBucket k2 it l) k =
        if k = k2 then bucket l k ++ [it] else bucket l k := by
  intro l
  induction l with
  | nil =>
    intro k
    simp only [addToBucket, bucket]
    by_cases h : k = k2
    · subst h
      simp [bucket]
    · rw [if_neg (fun he => h he.symm), if_neg h]
  | cons p rest ih =>
    intro k
    obtain ⟨k3, v⟩ := p
    simp only [addToBucket]
    split
    · next h3 =>
      subst h3
      simp only [bucket]
      by_cases h : k3 = k
      · subst h
        simp
      · simp only [if_neg h]
        rw [if_neg (fun he : k = k3 => h he.symm)]
    · next h3 =>
      simp only [bucket]
      by_cases h : k3 = k
      · subst h
        rw [if_pos rfl, if_pos rfl, if_neg (fun he : k3 = k2 => h3 he)]
      · rw [if_neg h, if_neg h, ih k]

theorem extendOne_bucket (m m2 : UseMapM) (it : ItemUse)
    (h : extendOne m it = .ok m2) :
    ∃ k, keyOfItem it = some k ∧
      ∀ q, mapBucket m2 q =
        if q = k then mapBucket m q ++ [it] else mapBucket m q := by
  unfold extendOne at h
  split at h
  · next ha =>
    rcases ht : keyOfTree it.tree with e | nm <;> rw [ht] at h
    · simp at h
    · simp only [Except.ok.injEq] at h
      refine ⟨⟨it.vis, it.leadColon, nm⟩, ?_, ?_⟩
      · simp [keyOfItem, ha, ht]
      · intro q
        subst h
        unfold mapBucket
        rw [setCat_catBuckets]
        by_cases hc : categoryOfName q.name = categoryOfName nm
        · rw [if_pos hc, hc, bucket_addToBucket]
        · rw [if_neg hc]
          have hq : ¬ q = ⟨it.vis, it.leadColon, nm⟩ := by
            intro he
            apply hc
            rw [he]
          rw [if_neg hq]
  · simp at h

theorem buildFrom_bucket :
    ∀ (us : List ItemUse) (m m2 : UseMapM),
      buildFrom m us = .ok m2 →
      ∀ q, mapBucket m2 q =
        mapBucket m q ++ us.filter (fun it => decide (keyOfItem it = some q)) := by
  intro us
  induction us with
  | nil =>
    intro m m2 h q
    simp only [buildFrom, List.foldlM_nil] at h
    have hm : m = m2 := Except.ok.inj h
    subst hm
    simp
  | cons it rest ih =>
    intro m m2 h q
    simp only [buildFrom, List.foldlM_cons] at h
    rcases h1 : extendOne m it with e | m1 <;>
      rw [h1] at h <;> simp only [bind, Except.bind] at h
    · exact absurd h (by simp)
    · have h2 : buildFrom m1 rest = .ok m2 := h
      obtain ⟨k, hk, hb⟩ := extendOne_bucket m m1 it h1
      have h3 := ih m1 m2 h2 q
      rw [h3, hb q]
      simp only [List.filter]
      by_cases hq : q = k
      · subst hq
        rw [if_pos rfl]
        simp [hk]
      · rw [if_neg hq]
        have hne : ¬ keyOfItem it = some q := by
          rw [hk]
          simp only [Option.some.injEq]
          intro he
          exact hq he.symm
        simp [hne]

theorem buildFrom_keys :
    ∀ (us : List ItemUse) (m m2 : UseMapM),
      buildFrom m us = .ok m2 → ∀ u, u ∈ us → keyOfItem u ≠ none := by
  intro us
  induction us with
  | nil =>
    intro m m2 _ u hu
    simp at hu
  | cons it rest ih =>
    intro m m2 h u hu
    simp only [buildFrom, List.foldlM_cons] at h
    rcases h1 : extendOne m it with e | m1 <;>
      rw [h1] at h <;> simp only [bind, Except.bind] at h
    · exact absurd h (by simp)
    · rcases List.mem_cons.mp hu with rfl | hu2
      · unfold extendOne at h1
        split at h1
        · next ha =>
          rcases ht : keyOfTree u.tree with e | nm <;> rw [ht] at h1
          · simp at h1
          · simp [keyOfItem, ha, ht]
        · simp at h1
      · exact ih m1 m2 h u hu2

-- Claim theorems.

/-- C1: the merge-tree insertion is not order-insensitive.  Feeding the
pairs (std, a) and (std::a, b) in the two possible orders yields trees
that are not structurally equivalent: bare-prefix first leaves a leaf `a`
and an interior `a` as separate siblings with no self-leaf, while
deeper-path first merges them into `a::{b, self}`.  This refutes the
determinism requirement as a property of the code. -/
theorem C1_insertion_order_dependent :
    fromPairs [(["std"], .ident ("a")), (["std", "a"], .ident ("b"))] =
      .ok (.group [.parentGroup ("std")
        [.leaf (.ident ("a")), .parentGroup ("a") [.leaf (.ident ("b"))]]]) ∧
    fromPairs [(["std", "a"], .ident ("b")), (["std"], .ident ("a"))] =
      .ok (.group [.parentGroup ("std")
        [.parentGroup ("a") [.leaf (.ident ("b")), .leaf (.ident ("self"))]]]) ∧
    ¬ structEquiv
      (.group [.parentGroup ("std")
        [.leaf (.ident ("a")), .parentGroup ("a") [.leaf (.ident ("b"))]]])
      (.group [.parentGroup ("std")
        [.parentGroup ("a") [.leaf (.ident ("b")), .leaf (.ident ("self"))]]]) := by
  refine ⟨by decide, by decide, ?_⟩
  intro he
  have h1 := (he.1 (["std"], .ident ("a"))).mp (by decide)
  exact absurd h1 (by decide)

/-- C2: the self-merge law is violated in one insertion order.  Inserting
the bare prefix leaf `a` (under `std`) before the deeper pair `a::b`
produces a group holding a leaf named `a` and an interior node named `a`
as separate siblings, and no self-leaf is synthesized: the leaf-promotion
branch of `visit_name` is unreachable because the descent cursor only ever
lands on parent nodes. -/
theorem C2_self_merge_law_violated :
    fromPairs [(["std"], .ident ("a")), (["std", "a"], .ident ("b"))] =
      .ok (.group [.parentGroup ("std")
        [.leaf (.ident ("a")), .parentGroup ("a") [.leaf (.ident ("b"))]]]) ∧
    RNode.leaf (.ident ("a")) ∈
      [RNode.leaf (.ident ("a")), RNode.parentGroup ("a") [.leaf (.ident ("b"))]] ∧
    RNode.parentGroup ("a") [.leaf (.ident ("b"))] ∈
      [RNode.leaf (.ident ("a")), RNode.parentGroup ("a") [.leaf (.ident ("b"))]] ∧
    (["std", "a"], Name.selfName) ∉ leafPairsRoot (.group [.parentGroup ("std")
      [.leaf (.ident ("a")), .parentGroup ("a") [.leaf (.ident ("b"))]]]) :=
  ⟨by decide, by decide, by decide, by decide⟩

/-- C3 counterexample: two declarations agreeing on visibility and
leading-colon flag but with different first path segments are put into two
distinct key buckets of the same category, hence two output statements —
the import key also contains the first segment's name, so agreement on
(visibility, leading-separator) alone does not imply merging. -/
theorem C3_same_vis_colon_not_merged :
    itemAX.vis = itemBY.vis ∧
    itemAX.leadColon = itemBY.leadColon ∧
    buildMap [itemAX, itemBY] = .ok mapAB ∧
    ¬ ∃ k, itemAX ∈ mapBucket mapAB k ∧ itemBY ∈ mapBucket mapAB k := by
  refine ⟨rfl, rfl, by decide, ?_⟩
  rintro ⟨k, hu, hv⟩
  unfold mapBucket at hu hv
  cases hcat : categoryOfName k.name with
  | std =>
    rw [hcat] at hu
    simp [catBuckets, mapAB, bucket] at hu
  | crate =>
    rw [hcat] at hu
    simp [catBuckets, mapAB, bucket] at hu
  | external =>
    rw [hcat] at hu hv
    simp only [catBuckets, mapAB, bucket] at hu hv
    by_cases hA : keyA = k
    · rw [if_pos hA] at hv
      simp only [List.mem_singleton] at hv
      exact absurd hv (by decide)
    · rw [if_neg hA] at hu
      by_cases hB : keyB = k
      · rw [if_pos hB] at hu
        simp only [List.mem_singleton] at hu
        exact absurd hu (by decide)
      · rw [if_neg hB] at hu
        simp at hu

/-- C3 amended: two declarations of one successfully categorized batch are
merged into the same bucket (one output statement) exactly when they agree
on the full import key — visibility, leading-colon flag, and the first
path segment's name. -/
theorem C3_merged_iff_same_full_key (us : List ItemUse) (m : UseMapM)
    (h : buildMap us = .ok m) (u : ItemUse) (hu : u ∈ us) (v : ItemUse) (hv : v ∈ us) :
    (∃ k, u ∈ mapBucket m k ∧ v ∈ mapBucket m k) ↔ keyOfItem u = keyOfItem v := by
  have h0 : buildFrom ⟨[], [], []⟩ us = .ok m := h
  have hb := buildFrom_bucket us ⟨[], [], []⟩ m h0
  have hku := buildFrom_keys us ⟨[], [], []⟩ m h0 u hu
  have hkv := buildFrom_keys us ⟨[], [], []⟩ m h0 v hv
  have hempty : ∀ q, mapBucket ⟨[], [], []⟩ q = [] := by
    intro q
    unfold mapBucket
    cases categoryOfName q.name <;> rfl
  constructor
  · rintro ⟨k, hu2, hv2⟩
    rw [hb k, hempty k, List.nil_append] at hu2 hv2
    have h1 := (List.mem_filter.mp hu2).2
    have h2 := (List.mem_filter.mp hv2).2
    simp only [decide_eq_true_eq] at h1 h2
    rw [h1, h2]
  · intro heq
    rcases hkk : keyOfItem u with _ | k
    · exact absurd hkk hku
    · have hk2 : keyOfItem v = some k := by
        rw [← heq]
        exact hkk
      refine ⟨k, ?_, ?_⟩
      · rw [hb k, hempty k, List.nil_append]
        exact List.mem_filter.mpr ⟨hu, by simp [hkk]⟩
      · rw [hb k, hempty k, List.nil_append]
        exact List.mem_filter.mpr ⟨hv, by simp [hk2]⟩

/-- C3 witness: instantiation of the merged-iff-same-key theorem on the
concrete batch `[itemAX, itemBY]`. -/
theorem C3_witness :
    (∃ k, itemAX ∈ mapBucket mapAB k ∧ itemAX ∈ mapBucket mapAB k) ↔
      keyOfItem itemAX = keyOfItem itemAX :=
  C3_merged_iff_same_full_key [itemAX, itemBY] mapAB (by decide) itemAX
    (by decide) itemAX (by decide)

/-- C4: serialization of a merge tree is unimplemented: `From<Tree> for
UseTree` is a bare `todo!()`, so even the collapse-law example — an
interior `std` with exactly one plain-name child `a` and no self-leaf —
panics instead of serializing to the direct path `std::a`. -/
theorem C4_serializer_todo :
    treeToUseTree (.group [.parentGroup ("std") [.leaf (.ident ("a"))]]) =
      .error .todoSerialize := rfl

/-- C5 counterexample: inserting the exact same (path, leaf) pair twice is
not idempotent — the second insertion appends a duplicate leaf. -/
theorem C5_duplicate_leaf_emitted :
    fromPairs [(["std"], .ident ("a"))] =
      .ok (.group [.parentGroup ("std") [.leaf (.ident ("a"))]]) ∧
    fromPairs [(["std"], .ident ("a")), (["std"], .ident ("a"))] =
      .ok (.group [.parentGroup ("std") [.leaf (.ident ("a")), .leaf (.ident ("a"))]]) ∧
    Root.group [.parentGroup ("std") [.leaf (.ident ("a")), .leaf (.ident ("a"))]] ≠
      Root.group [.parentGroup ("std") [.leaf (.ident ("a"))]] :=
  ⟨by decide, by decide, by decide⟩

/-- C5 amended: re-inserting a pair is never a no-op — every successful
insertion strictly increases the tree's leaf count, so the second
insertion of the same pair always changes the tree (a duplicate leaf or
self-leaf is emitted). -/
theorem C5_second_insertion_changes_tree (p : List String × Name) (t t1 t2 : Root)
    (_h1 : insertPair t p = .ok t1) (h2 : insertPair t1 p = .ok t2) :
    countRoot t1 < countRoot t2 ∧ t2 ≠ t1 := by
  have hc := visitName_count p.1 p.2 t1 t2 h2
  refine ⟨hc, ?_⟩
  intro he
  rw [he] at hc
  exact absurd hc (lt_irrefl _)

/-- C5 witness: the amended statement applied to the pair (std, a) and the
empty tree. -/
theorem C5_witness :
    countRoot (.group [.parentGroup ("std") [.leaf (.ident ("a"))]]) <
      countRoot (.group [.parentGroup ("std") [.leaf (.ident ("a")), .leaf (.ident ("a"))]]) ∧
    Root.group [.parentGroup ("std") [.leaf (.ident ("a")), .leaf (.ident ("a"))]] ≠
      Root.group [.parentGroup ("std") [.leaf (.ident ("a"))]] :=
  C5_second_insertion_changes_tree (["std"], .ident ("a")) (.group [])
    (.group [.parentGroup ("std") [.leaf (.ident ("a"))]])
    (.group [.parentGroup ("std") [.leaf (.ident ("a")), .leaf (.ident ("a"))]])
    (by decide) (by decide)

/-- C6: the category of an import is a pure function of its first path
segment's identifier: std, core and alloc map to the standard-library
category; self, super and crate map to the self-relative category; every
other identifier maps to External; a wildcard leaf is always External; a
rename is categorized by its original identifier. -/
theorem C6_category_pure_function :
    categoryOfName (.ident ("std")) = .std ∧
    categoryOfName (.ident ("core")) = .std ∧
    categoryOfName (.ident ("alloc")) = .std ∧
    categoryOfName (.ident ("self")) = .crate ∧
    categoryOfName (.ident ("super")) = .crate ∧
    categoryOfName (.ident ("crate")) = .crate ∧
    (∀ s : String, s ≠ "std" → s ≠ "core" → s ≠ "alloc" → s ≠ "self" →
      s ≠ "super" → s ≠ "crate" → categoryOfName (.ident s) = .external) ∧
    categoryOfName .glob = .external ∧
    (∀ orig ren : String, categoryOfName (.rename orig ren) = categoryOfName (.ident orig)) := by
  refine ⟨rfl, rfl, rfl, rfl, rfl, rfl, ?_, rfl, ?_⟩
  · intro s h1 h2 h3 h4 h5 h6
    simp [categoryOfName, h1, h2, h3, h4, h5, h6]
  · intro orig ren
    rfl

/-- C6 witness: an identifier outside both reserved sets categorizes as
External. -/
theorem C6_witness : categoryOfName (.ident ("serde")) = .external :=
  C6_category_pure_function.2.2.2.2.2.2.1 ("serde") (by decide) (by decide)
    (by decide) (by decide) (by decide) (by decide)

/-- C7 counterexample: two restricted visibilities are not ordered by
their path text.  The key with visibility `pub(in a)` compares greater
than the key with visibility `pub(crate)`, although the path `a` is
lexicographically less than the path `crate`: presence of the `in` token
is compared before the path. -/
theorem C7_restricted_not_ordered_by_path_text :
    keyCmp ⟨.restricted true false ["a"], false, .ident ("x")⟩
      ⟨.restricted false false ["crate"], false, .ident ("x")⟩ = .gt ∧
    listStrCmp ["a"] ["crate"] = .lt :=
  ⟨by decide, by decide⟩

/-- C7 amended: the import-key comparison is a total order (equality
reflection, antisymmetry via swap, transitivity), visibilities order as
inherited < restricted < public, restricted visibilities order by
in-token presence, then leading-colon presence, then path segments (so by
path text exactly when the flags agree), and `UseMap::take` emits the
buckets of one category sorted ascending by this key order (a permutation
of the stored buckets). -/
theorem C7_key_order_total_and_take_sorted :
    (∀ a b : UseKey, keyCmp a b = .eq ↔ a = b) ∧
    (∀ a b : UseKey, (keyCmp a b).swap = keyCmp b a) ∧
    (∀ a b c : UseKey, keyCmp a b = .lt → keyCmp b c = .lt → keyCmp a c = .lt) ∧
    (∀ (i c : Bool) (s : List String), visCmp .inherited (.restricted i c s) = .lt) ∧
    (∀ (i c : Bool) (s : List String), visCmp (.restricted i c s) .pub = .lt) ∧
    visCmp .inherited .pub = .lt ∧
    (∀ (i1 c1 i2 c2 : Bool) (s1 s2 : List String),
      visCmp (.restricted i1 c1 s1) (.restricted i2 c2 s2) =
        (boolCmp i1 i2).then ((boolCmp c1 c2).then (listStrCmp s1 s2))) ∧
    (∀ (i c : Bool) (s1 s2 : List String),
      visCmp (.restricted i c s1) (.restricted i c s2) = listStrCmp s1 s2) ∧
    (∀ (m : UseMapM) (cat : Category), (takeCat m cat).Pairwise entryLe) ∧
    (∀ (m : UseMapM) (cat : Category), (takeCat m cat).Perm (catBuckets m cat)) := by
  refine ⟨keyCmpEqIff, keyCmpSwap, keyCmpLtTrans, fun i c s => rfl, fun i c s => rfl,
    rfl, fun i1 c1 i2 c2 s1 s2 => rfl, ?_, fun m cat => sortEntries_pairwise _,
    fun m cat => sortEntries_perm _⟩
  intro i c s1 s2
  simp [visCmp, boolCmp, Ordering.then]

/-- C7 witness: transitivity applied at three concrete keys, and the
restricted comparison with equal flags reducing to the segment
comparison. -/
theorem C7_witness :
    keyCmp ⟨.inherited, false, .ident ("a")⟩ ⟨.pub, false, .ident ("a")⟩ = .lt ∧
    visCmp (.restricted false false ["a"]) (.restricted false false ["b"]) =
      listStrCmp ["a"] ["b"] :=
  ⟨C7_key_order_total_and_take_sorted.2.2.1 ⟨.inherited, false, .ident ("a")⟩
      ⟨.restricted false false ["m"], false, .ident ("a")⟩
      ⟨.pub, false, .ident ("a")⟩ (by decide) (by decide),
    C7_key_order_total_and_take_sorted.2.2.2.2.2.2.2.1 false false ["a"] ["b"]⟩

/-- C8: the categorizer asserts that an import carries no attribute
decorations: feeding an item with non-empty attributes fails fast with
exactly the assertion panic, and for an item with empty attributes the
assertion branch is never the outcome. -/
theorem C8_assert_on_decorated_import (m : UseMapM) (item : ItemUse) :
    extendOne m item = .error .assertAttrsNonempty ↔ item.attrs ≠ [] := by
  constructor
  · intro he
    unfold extendOne at he
    split at he
    · next ha =>
      exfalso
      rcases ht : keyOfTree item.tree with e | nm <;> simp only [ht] at he
      · have he2 := Except.error.inj he
        subst he2
        cases htree : item.tree <;> rw [htree] at ht <;> simp [keyOfTree] at ht
      · exact absurd he (by simp)
    · next ha => exact ha
  · intro hne
    unfold extendOne
    rw [if_neg hne]

/-- C9: `format` copies non-import text through byte-for-byte, but every
contiguous run of use items reaches the unimplemented serializer: a file
whose only import is `use std::a;` panics at the `todo!()` of
`From<Tree> for UseTree` instead of emitting the category blocks. -/
theorem C9_text_preserved_but_every_run_panics :
    formatModel [.other ("fn main() \x7b\x7d\n")] = .ok ("fn main() \x7b\x7d\n") ∧
    formatModel [.other ("// header\n"),
      .use_ ⟨[], .inherited, false, .path ("std") (.name ("a"))⟩,
      .other ("fn f() \x7b\x7d\n")] = .error .todoSerialize :=
  ⟨by decide, by decide⟩

/-- C10: there are syntactically valid, undecorated inputs on which
`format` panics in a `todo!()` branch instead of returning: a bare
single-segment import `use foo;` reaches the empty-path `todo!()` of
`visit_name`, and a top-level group import `use {a, b};` reaches the
`UseTree::Group` `todo!()` of the categorizer. -/
theorem C10_format_panics_on_valid_undecorated_inputs :
    formatModel [.use_ ⟨[], .inherited, false, .name ("foo")⟩] =
      .error .todoEmptyPath ∧
    formatModel [.use_ ⟨[], .inherited, false, .group [.name ("a"), .name ("b")]⟩] =
      .error .todoGroupInKey :=
  ⟨by decide, by decide⟩
